import Mathlib

/-!
Verification development for the skill synchronization and onboarding
reconciliation engine of the ai-toolbox repository.

The data model below is embedded from `src/web/features/skills/types/index.ts`.
The front-end handlers (`SkillsSettingsModal.handleSave`, the preferred-tools
initialization, `NewToolsModal.handleSyncAll`) and the TOML text helpers
(`src/web/utils/codexConfigUtils.ts`) are embedded from their TypeScript
sources.  The reconciliation core itself (sync engine, onboarding reconciler,
git source cache, tool status query) is not present in the given source files;
those components are modelled from the specification, and each such definition
is marked `Modelled from the spec:` in its doc comment.
-/

namespace AiToolbox

/-- Source type of a managed skill, from the union type
`'local' | 'git' | 'import'` in `types/index.ts`. -/
inductive SourceType where
  | localType
  | gitType
  | importType
deriving DecidableEq, Repr

/-- SkillTarget record, from `types/index.ts` lines 16-22. -/
structure SkillTarget where
  tool : String
  mode : String
  status : String
  target_path : String
  synced_at : Option Nat
deriving DecidableEq, Repr

/-- ManagedSkill record, from `types/index.ts` lines 3-14.  Timestamps are
modelled as natural numbers. -/
structure ManagedSkill where
  id : String
  name : String
  source_type : SourceType
  source_ref : Option String
  central_path : String
  created_at : Nat
  updated_at : Nat
  last_sync_at : Option Nat
  status : String
  targets : List SkillTarget
deriving DecidableEq, Repr

/-- ToolInfo record, from `types/index.ts` lines 24-28. -/
structure ToolInfo where
  key : String
  label : String
  installed : Bool
deriving DecidableEq, Repr

/-- ToolStatus record, from `types/index.ts` lines 30-34. -/
structure ToolStatus where
  tools : List ToolInfo
  installed : List String
  newly_installed : List String
deriving DecidableEq, Repr

/-- SyncResult record, from `types/index.ts` lines 43-46. -/
structure SyncResult where
  mode_used : String
  target_path : String
deriving DecidableEq, Repr

/-- OnboardingVariant record, from `types/index.ts` lines 62-69. -/
structure OnboardingVariant where
  tool : String
  name : String
  path : String
  fingerprint : Option String
  is_link : Bool
  link_target : Option String
deriving DecidableEq, Repr

/-- OnboardingGroup record, from `types/index.ts` lines 71-75. -/
structure OnboardingGroup where
  name : String
  variants : List OnboardingVariant
  has_conflict : Bool
deriving DecidableEq, Repr

end AiToolbox

namespace AiToolbox.Settings

/-- Persisted preference store, from the external interface in the spec:
`centralRepoPath`, `gitCacheCleanupDays`, `gitCacheTtlSecs`, `preferredTools`
(the latter with a `null` sentinel distinct from the empty list, hence
`Option (List String)`). -/
structure SkillPrefs where
  centralRepoPath : String
  gitCacheCleanupDays : Nat
  gitCacheTtlSecs : Nat
  preferredTools : Option (List String)
deriving DecidableEq, Repr

/-- Local state of the settings modal, from the `React.useState` hooks of
`SkillsSettingsModal.tsx` lines 20-26: the editable path display, cleanup
days, TTL seconds and the preferred-tools checkbox selection. -/
structure ModalState where
  path : String
  cleanupDays : Nat
  ttlSecs : Nat
  preferredTools : List String
deriving DecidableEq, Repr

/-- Initialization of the preferred-tools selection when the modal opens, from
`SkillsSettingsModal.tsx` lines 45-50: a stored `null` (never configured)
defaults the selection to the currently installed tool keys, while a stored
list (possibly empty) is used verbatim. -/
def initPreferredTools (saved : Option (List String)) (status : ToolStatus) :
    List String :=
  match saved with
  | none => status.installed
  | some l => l

/-- Save action of the settings modal, from `SkillsSettingsModal.tsx` lines
72-84: it calls `setGitCacheCleanupDays(cleanupDays)` and
`setPreferredTools(preferredTools)` and nothing else, so only those two
preferences change. -/
def handleSave (prefs : SkillPrefs) (m : ModalState) : SkillPrefs :=
  { prefs with
    gitCacheCleanupDays := m.cleanupDays
    preferredTools := some m.preferredTools }

/-- Modelled from the spec: the tool status query (exposed by the backend,
absent from the given sources).  It reports the scanned tool list, the keys of
the tools detected as installed, and among those the keys not seen installed
at the previous observation. -/
def computeToolStatus (tools : List ToolInfo) (prevInstalled : List String) :
    ToolStatus :=
  let inst := (tools.filter (fun t => t.installed)).map (fun t => t.key)
  { tools := tools
    installed := inst
    newly_installed := inst.filter (fun k => !(prevInstalled.contains k)) }

end AiToolbox.Settings

namespace AiToolbox.Onboarding

/-- Modelled from the spec: the conflict rule of the onboarding reconciler
(absent from the given sources; `types/index.ts` lines 71-75 only declare the
`has_conflict` field).  Two variants imply different underlying content when
both fingerprints are available and differ; equal fingerprints are identical
content regardless of link versus copy.  When a fingerprint is unavailable,
two symlinks resolving to different targets imply different content, while
symlinks resolving to the same target do not. -/
def variantContentDiffers (v w : OnboardingVariant) : Bool :=
  if v.fingerprint.isSome && w.fingerprint.isSome then
    v.fingerprint != w.fingerprint
  else
    v.is_link && w.is_link && v.link_target != w.link_target

/-- Modelled from the spec: `has_conflict` is true iff the group has at least
two variants that imply different underlying content. -/
def computeHasConflict (variants : List OnboardingVariant) : Bool :=
  variants.any (fun v => variants.any (fun w => variantContentDiffers v w))

/-- No variant differs from itself. -/
theorem variantContentDiffers_self (v : OnboardingVariant) :
    variantContentDiffers v v = false := by
  unfold variantContentDiffers
  split <;> simp

/-- Copy variant of tool A with fingerprint h1, from the worked example in the
spec. -/
def variantA : OnboardingVariant :=
  { tool := "A", name := "skill", path := "pathA", fingerprint := some "h1"
    is_link := false, link_target := none }

/-- Copy variant of tool B with the given fingerprint, from the worked example
in the spec. -/
def variantB (fp : String) : OnboardingVariant :=
  { tool := "B", name := "skill", path := "pathB", fingerprint := some fp
    is_link := false, link_target := none }

/-- Conflicting group used by the witness. -/
def conflictGroupExample : OnboardingGroup :=
  { name := "skill", variants := [variantA, variantB "h2"], has_conflict := true }

/-- C1: for every onboarding group whose `has_conflict` field was produced by
the scan rule, `has_conflict` is true iff the group holds two distinct
variants implying different underlying content; moreover the two-variant group
with equal fingerprints h1,h1 has no conflict and the one with fingerprints
h1,h2 has a conflict. -/
theorem hasConflict_iff_two_differing_variants :
    (∀ g : OnboardingGroup, g.has_conflict = computeHasConflict g.variants →
      (g.has_conflict = true ↔
        ∃ v ∈ g.variants, ∃ w ∈ g.variants,
          v ≠ w ∧ variantContentDiffers v w = true)) ∧
    computeHasConflict [variantA, variantB "h1"] = false ∧
    computeHasConflict [variantA, variantB "h2"] = true := by
  refine ⟨?_, by decide, by decide⟩
  intro g hg
  rw [hg]
  unfold computeHasConflict
  simp only [List.any_eq_true]
  constructor
  · rintro ⟨v, hv, w, hw, hd⟩
    refine ⟨v, hv, w, hw, ?_, hd⟩
    intro heq
    rw [heq, variantContentDiffers_self] at hd
    exact Bool.noConfusion hd
  · rintro ⟨v, hv, w, hw, -, hd⟩
    exact ⟨v, hv, w, hw, hd⟩

/-- Witness: the conflict rule applied to the concrete h1,h2 group. -/
theorem hasConflict_iff_two_differing_variants_witness :
    conflictGroupExample.has_conflict = true :=
  (hasConflict_iff_two_differing_variants.1 conflictGroupExample (by decide)).mpr
    ⟨variantA, by decide, variantB "h2", by decide, by decide, by decide⟩

end AiToolbox.Onboarding

namespace AiToolbox.Settings

/-- C7: the persisted preferredTools preference distinguishes the null
sentinel from an explicit empty list: a stored `none` initializes the
selection to exactly the currently installed tool keys, a stored list
(including the empty one) is used verbatim, and the two initializations are
observably different. -/
theorem initPreferredTools_null_sentinel :
    (∀ status : ToolStatus, initPreferredTools none status = status.installed) ∧
    (∀ (l : List String) (status : ToolStatus),
      initPreferredTools (some l) status = l) ∧
    (initPreferredTools none { tools := [], installed := ["claude"], newly_installed := [] } = ["claude"] ∧
     initPreferredTools (some []) { tools := [], installed := ["claude"], newly_installed := [] } = [] ∧
     (["claude"] : List String) ≠ []) :=
  ⟨fun _ => rfl, fun _ _ => rfl, rfl, rfl, by decide⟩

/-- C9: saving the settings modal persists only the cleanup days and the
preferred-tools list; whatever value the TTL field holds, the persisted
`gitCacheTtlSecs` (and the central path) are unchanged by `handleSave`. -/
theorem handleSave_preserves_ttl :
    ∀ (prefs : SkillPrefs) (m : ModalState),
      (handleSave prefs m).gitCacheTtlSecs = prefs.gitCacheTtlSecs ∧
      (handleSave prefs m).centralRepoPath = prefs.centralRepoPath ∧
      (handleSave prefs m).gitCacheCleanupDays = m.cleanupDays ∧
      (handleSave prefs m).preferredTools = some m.preferredTools :=
  fun _ _ => ⟨rfl, rfl, rfl, rfl⟩

/-- C8: in every tool status produced by the query, `newly_installed` is a
subset of `installed`, and `installed` is a subset of the keys of the tool
list. -/
theorem computeToolStatus_subset_chain :
    ∀ (tools : List ToolInfo) (prevInstalled : List String),
      (computeToolStatus tools prevInstalled).newly_installed ⊆
        (computeToolStatus tools prevInstalled).installed ∧
      (computeToolStatus tools prevInstalled).installed ⊆
        tools.map (fun t => t.key) := by
  intro tools prevInstalled
  constructor
  · intro k hk
    simp only [computeToolStatus, List.mem_filter] at hk ⊢
    exact hk.1
  · intro k hk
    simp only [computeToolStatus, List.mem_map, List.mem_filter] at hk
    rcases hk with ⟨t, ⟨ht, -⟩, rfl⟩
    exact List.mem_map.mpr ⟨t, ht, rfl⟩

/-- Witness: the subset chain applied to one concrete installed tool. -/
theorem computeToolStatus_subset_chain_witness :
    "claude" ∈ (computeToolStatus [{ key := "claude", label := "Claude", installed := true }] []).installed :=
  (computeToolStatus_subset_chain [{ key := "claude", label := "Claude", installed := true }] []).1
    (by decide)

/-- Witness: the null sentinel initialization at a concrete tool status. -/
theorem initPreferredTools_null_sentinel_witness :
    initPreferredTools none
      { tools := [], installed := ["claude"], newly_installed := [] } = ["claude"] :=
  initPreferredTools_null_sentinel.1
    { tools := [], installed := ["claude"], newly_installed := [] }

/-- Witness: saving concrete modal state leaves the persisted TTL of 60
unchanged. -/
theorem handleSave_preserves_ttl_witness :
    (handleSave (SkillPrefs.mk "/central" 30 60 none)
      (ModalState.mk "/central" 7 999 ["claude"])).gitCacheTtlSecs = 60 :=
  (handleSave_preserves_ttl (SkillPrefs.mk "/central" 30 60 none)
    (ModalState.mk "/central" 7 999 ["claude"])).1

end AiToolbox.Settings

namespace AiToolbox.NewTools

/-- Caller-visible and logged outcome of the bulk sync in
`NewToolsModal.handleSyncAll`.  `attempted` lists the
`(central_path, skill id, tool key, skill name)` argument tuples passed to
`api.syncSkillToTool`; `consoleWarnings` lists the `(skill name, tool key,
error)` triples sent to `console.warn` for failed calls; `userMessage` is the
message shown to the user when the batch finishes. -/
structure SyncAllOutcome where
  attempted : List (String × String × String × String)
  consoleWarnings : List (String × String × String)
  userMessage : String
deriving DecidableEq, Repr

/-- Translation key of the unconditional completion toast in
`NewToolsModal.tsx` line 51. -/
def successMessage : String := "skills.status.syncCompleted"

/-- Pairs visited by the nested loops of `handleSyncAll` (`NewToolsModal.tsx`
lines 33-50): every skill crossed with every newly installed tool key, minus
the pairs skipped because the skill already has a target for that tool. -/
def eligiblePairs (skills : List ManagedSkill) (newlyInstalled : List String) :
    List (ManagedSkill × String) :=
  skills.flatMap (fun sk =>
    (newlyInstalled.filter (fun tk =>
      !(sk.targets.any (fun t => t.tool == tk)))).map (fun tk => (sk, tk)))

/-- Bulk sync handler from `NewToolsModal.tsx` lines 30-59.  The per-pair API
call is modelled by `apiSync`, taking the same four arguments the code passes
(`central_path`, skill `id`, tool key, skill `name`).  A failing call is
caught inside the loop and logged via `console.warn`; the loop then continues
with the next pair, and the handler always ends by showing the fixed success
toast. -/
def handleSyncAll (skills : List ManagedSkill) (newlyInstalled : List String)
    (apiSync : String → String → String → String → Except String SyncResult) :
    SyncAllOutcome :=
  let calls := eligiblePairs skills newlyInstalled
  { attempted := calls.map (fun c => (c.1.central_path, c.1.id, c.2, c.1.name))
    consoleWarnings := calls.filterMap (fun c =>
      match apiSync c.1.central_path c.1.id c.2 c.1.name with
      | .error e => some (c.1.name, c.2, e)
      | .ok _ => none)
    userMessage := successMessage }

/-- Per-pair API call as `handleSyncAll` issues it, with the argument order of
`NewToolsModal.tsx` lines 40-45. -/
def apiCall (api0 : String → String → String → String → Except String SyncResult)
    (c : ManagedSkill × String) : Except String SyncResult :=
  api0 c.1.central_path c.1.id c.2 c.1.name

/-- First example skill of the counterexample batch. -/
def skillOne : ManagedSkill :=
  { id := "s1", name := "Skill One", source_type := SourceType.localType
    source_ref := none, central_path := "/central/s1", created_at := 0
    updated_at := 0, last_sync_at := none, status := "active", targets := [] }

/-- Second example skill of the counterexample batch. -/
def skillTwo : ManagedSkill :=
  { id := "s2", name := "Skill Two", source_type := SourceType.localType
    source_ref := none, central_path := "/central/s2", created_at := 0
    updated_at := 0, last_sync_at := none, status := "active", targets := [] }

/-- API stub that fails for the first skill and succeeds otherwise. -/
def apiFailOnFirst (_cp id _tk _nm : String) : Except String SyncResult :=
  if id == "s1" then Except.error "permission denied"
  else Except.ok { mode_used := "copy", target_path := "/tool/p" }

/-- API stub that always succeeds. -/
def apiAllOk (_cp _id _tk _nm : String) : Except String SyncResult :=
  Except.ok { mode_used := "copy", target_path := "/tool/p" }

/-- Counterexample to C1-as-stated for claim C4: in a batch where syncing
`skillOne` fails, the later pair is still attempted, yet the caller-visible
completion message is exactly the one of an all-success run — the failure is
recorded only in the console log, so the caller receives no outcome summary
listing the failed pair. -/
theorem handleSyncAll_failure_not_in_caller_summary :
    (handleSyncAll [skillOne, skillTwo] ["toolX"] apiFailOnFirst).userMessage =
      (handleSyncAll [skillOne, skillTwo] ["toolX"] apiAllOk).userMessage ∧
    (handleSyncAll [skillOne, skillTwo] ["toolX"] apiFailOnFirst).consoleWarnings =
      [("Skill One", "toolX", "permission denied")] ∧
    (handleSyncAll [skillOne, skillTwo] ["toolX"] apiFailOnFirst).attempted =
      [("/central/s1", "s1", "toolX", "Skill One"),
       ("/central/s2", "s2", "toolX", "Skill Two")] := by
  decide

/-- C4 (amended): a failure of one per-pair sync never prevents the remaining
pairs from being attempted — the attempted pairs do not depend on the API
outcomes at all — and every failure is logged to the console with its reason;
but the handler reports the fixed success message whatever happened, so no
per-pair outcome summary reaches the caller. -/
theorem handleSyncAll_attempts_independent_of_failures :
    (∀ (skills : List ManagedSkill) (newlyInstalled : List String)
       (api1 api2 : String → String → String → String → Except String SyncResult),
      (handleSyncAll skills newlyInstalled api1).attempted =
        (handleSyncAll skills newlyInstalled api2).attempted) ∧
    (∀ (skills : List ManagedSkill) (newlyInstalled : List String)
       (api0 : String → String → String → String → Except String SyncResult)
       (nm tk e : String),
      (nm, tk, e) ∈ (handleSyncAll skills newlyInstalled api0).consoleWarnings ↔
        ∃ c ∈ eligiblePairs skills newlyInstalled, c.1.name = nm ∧ c.2 = tk ∧
          apiCall api0 c = Except.error e) ∧
    (∀ (skills : List ManagedSkill) (newlyInstalled : List String)
       (api0 : String → String → String → String → Except String SyncResult),
      (handleSyncAll skills newlyInstalled api0).userMessage = successMessage) := by
  refine ⟨fun _ _ _ _ => rfl, ?_, fun _ _ _ => rfl⟩
  intro skills newlyInstalled api0 nm tk e
  unfold handleSyncAll apiCall
  simp only [List.mem_filterMap]
  constructor
  · rintro ⟨c, hc, hsome⟩
    refine ⟨c, hc, ?_⟩
    revert hsome
    cases api0 c.1.central_path c.1.id c.2 c.1.name with
    | error e0 =>
      intro hsome
      simp only [Option.some.injEq, Prod.mk.injEq] at hsome
      exact ⟨hsome.1, hsome.2.1, by rw [hsome.2.2]⟩
    | ok r => intro hsome; exact Option.noConfusion hsome
  · rintro ⟨c, hc, hnm, htk, herr⟩
    refine ⟨c, hc, ?_⟩
    rw [herr, hnm, htk]

/-- Witness: the amended bulk-sync behavior at a concrete batch. -/
theorem handleSyncAll_attempts_independent_of_failures_witness :
    (handleSyncAll [skillOne] ["toolX"] apiAllOk).userMessage = successMessage :=
  handleSyncAll_attempts_independent_of_failures.2.2 [skillOne] ["toolX"] apiAllOk

end AiToolbox.NewTools

namespace AiToolbox

/-- Finite map from string keys, used for the on-disk content per target path,
the reverse index from target path to skill id, and the git cache entries. -/
def setAssoc {α : Type} (assoc : List (String × α)) (k : String) (v : α) :
    List (String × α) :=
  (k, v) :: assoc.filter (fun q => !(q.1 == k))

theorem lookup_setAssoc_same {α : Type} (assoc : List (String × α))
    (k : String) (v : α) : List.lookup k (setAssoc assoc k v) = some v := by
  simp [setAssoc, List.lookup_cons]

theorem lookup_filter_ne {α : Type} (t : List (String × α)) (k k2 : String)
    (h : k2 ≠ k) :
    List.lookup k2 (t.filter (fun q => !(q.1 == k))) = List.lookup k2 t := by
  induction t with
  | nil => rfl
  | cons q t ih =>
    obtain ⟨qk, qv⟩ := q
    by_cases hq : qk = k
    · subst hq
      rw [List.filter_cons_of_neg (by simp)]
      rw [ih]
      have hk2 : (k2 == qk) = false := by simpa using h
      simp [List.lookup_cons, hk2]
    · rw [List.filter_cons_of_pos (by simp [hq])]
      simp only [List.lookup_cons]
      cases hcase : (k2 == qk) with
      | true => rfl
      | false => exact ih

theorem lookup_setAssoc_other {α : Type} (assoc : List (String × α))
    (k k2 : String) (v : α) (h : k2 ≠ k) :
    List.lookup k2 (setAssoc assoc k v) = List.lookup k2 assoc := by
  unfold setAssoc
  have hb : (k2 == k) = false := by simpa using h
  simp only [List.lookup_cons, hb]
  exact lookup_filter_ne assoc k k2 h

end AiToolbox

namespace AiToolbox.Engine

/-- Modelled from the spec (§7): the error kinds the sync path can raise. -/
inductive SyncError where
  | targetPathConflict
  | notFound
deriving DecidableEq, Repr

/-- Modelled from the spec: the slice of a managed skill the sync engine
reads — its stable id, its name (which determines the target path), and the
canonical content held at its central path. -/
structure SkillRec where
  id : String
  name : String
  content : String
deriving DecidableEq, Repr

/-- Modelled from the spec: per (skill, tool) SkillTarget record kept by the
sync engine. -/
structure TargetRec where
  skillId : String
  tool : String
  mode : String
  target_path : String
  synced_at : Nat
deriving DecidableEq, Repr

/-- Modelled from the spec: state the sync engine acts on — the on-disk
content of target paths, the central registry reverse index from target path
to owning skill id, the SkillTarget records, and whether the host supports
linking. -/
structure EngineState where
  fileAt : List (String × String)
  owner : List (String × String)
  targets : List TargetRec
  linkSupported : Bool
deriving DecidableEq, Repr

/-- Modelled from the spec (§4.1): deterministic content hash.  The spec
treats equal fingerprints as identical content, so the hash is modelled as
the content itself, which is deterministic and collision-free. -/
def fingerprint (content : String) : String := content

/-- Modelled from the spec (§4.3): deterministic target path convention,
a function of the tool and the skill name only. -/
def targetPathFor (tool skillName : String) : String :=
  tool ++ "/" ++ skillName

/-- Modelled from the spec (§4.4): requested mode, degraded to copy when the
host does not support linking. -/
def modeUsed (st : EngineState) (mode : String) : String :=
  if mode == "link" && !st.linkSupported then "copy" else mode

/-- Refresh the `synced_at` stamp of the (skill, tool) target record. -/
def refreshSyncedAt (ts : List TargetRec) (sid tool : String) (now : Nat) :
    List TargetRec :=
  ts.map (fun t =>
    if t.skillId == sid && t.tool == tool then { t with synced_at := now } else t)

/-- Insert the newly created (skill, tool) target record. -/
def addTarget (ts : List TargetRec) (sid tool mode p : String) (now : Nat) :
    List TargetRec :=
  { skillId := sid, tool := tool, mode := mode, target_path := p
    synced_at := now } :: ts

/-- Modelled from the spec (§4.4): `sync(skill, tool, mode)` computes
`targetPathFor(tool, skill.name)`; if the computed path is owned by a
different skill in the reverse index it fails with `TargetPathConflict` and
changes nothing; if the path is owned by this skill it compares fingerprints
and, when the central content is unchanged, performs a no-op that only
refreshes `synced_at`, otherwise overwrites the target content; if the path
is unowned it writes the content, records ownership and creates the
SkillTarget record. -/
def sync (st : EngineState) (sk : SkillRec) (tool mode : String) (now : Nat) :
    Except SyncError SyncResult × EngineState :=
  let p := targetPathFor tool sk.name
  let used := modeUsed st mode
  match List.lookup p st.owner with
  | some sid =>
    if sid = sk.id then
      match List.lookup p st.fileAt with
      | some c =>
        if fingerprint c == fingerprint sk.content then
          (Except.ok { mode_used := used, target_path := p },
           { st with targets := refreshSyncedAt st.targets sk.id tool now })
        else
          (Except.ok { mode_used := used, target_path := p },
           { st with fileAt := setAssoc st.fileAt p sk.content
                     targets := refreshSyncedAt st.targets sk.id tool now })
      | none =>
        (Except.ok { mode_used := used, target_path := p },
         { st with fileAt := setAssoc st.fileAt p sk.content
                   targets := refreshSyncedAt st.targets sk.id tool now })
    else (Except.error SyncError.targetPathConflict, st)
  | none =>
    (Except.ok { mode_used := used, target_path := p },
     { st with fileAt := setAssoc st.fileAt p sk.content
               owner := setAssoc st.owner p sk.id
               targets := addTarget st.targets sk.id tool used p now })

/-- C2: when target path P is owned by skill S1 in the reverse index and a
different skill S2 computes the same path, `sync` fails with
`TargetPathConflict`, leaves the whole state unchanged, and P still holds
S1's content. -/
theorem sync_target_path_conflict :
    ∀ (st : EngineState) (sk2 : SkillRec) (tool mode : String) (now : Nat)
      (s1 : String),
      List.lookup (targetPathFor tool sk2.name) st.owner = some s1 →
      s1 ≠ sk2.id →
      (sync st sk2 tool mode now).1 = Except.error SyncError.targetPathConflict ∧
      (sync st sk2 tool mode now).2 = st ∧
      List.lookup (targetPathFor tool sk2.name) (sync st sk2 tool mode now).2.fileAt =
        List.lookup (targetPathFor tool sk2.name) st.fileAt ∧
      List.lookup (targetPathFor tool sk2.name) (sync st sk2 tool mode now).2.owner =
        some s1 := by
  intro st sk2 tool mode now s1 hown hne
  simp only [sync, hown]
  rw [if_neg hne]
  exact ⟨rfl, rfl, rfl, hown⟩

/-- Witness for the target-path-conflict theorem on a concrete state in which
`alpha/foo` belongs to skill s1 and skill s2 is also named foo. -/
theorem sync_target_path_conflict_witness :
    List.lookup (targetPathFor "alpha" "foo")
        (EngineState.mk [("alpha/foo", "content1")] [("alpha/foo", "s1")] [] true).owner =
      some "s1" ∧
    (sync (EngineState.mk [("alpha/foo", "content1")] [("alpha/foo", "s1")] [] true)
        (SkillRec.mk "s2" "foo" "content2") "alpha" "copy" 5).1 =
      Except.error SyncError.targetPathConflict :=
  ⟨by decide,
   (sync_target_path_conflict
      (EngineState.mk [("alpha/foo", "content1")] [("alpha/foo", "s1")] [] true)
      (SkillRec.mk "s2" "foo" "content2") "alpha" "copy" 5 "s1"
      (by decide) (by decide)).1⟩


/-- C3: calling `sync(skill, tool)` twice in a row with unchanged central
content yields the same `target_path` and `mode_used` on both calls, and the
second call does not rewrite any target file content: the file map after the
second call equals the file map after the first (so the content fingerprint
at the target is unchanged), while `synced_at` may advance. -/
theorem sync_idempotent_when_content_unchanged :
    ∀ (st : EngineState) (sk : SkillRec) (tool mode : String) (t1 t2 : Nat)
      (r1 : SyncResult),
      (sync st sk tool mode t1).1 = Except.ok r1 →
      ∃ r2 : SyncResult,
        (sync (sync st sk tool mode t1).2 sk tool mode t2).1 = Except.ok r2 ∧
        r2.target_path = r1.target_path ∧
        r2.mode_used = r1.mode_used ∧
        (sync (sync st sk tool mode t1).2 sk tool mode t2).2.fileAt =
          (sync st sk tool mode t1).2.fileAt := by
  intro st sk tool mode t1 t2 r1
  rcases e1 : sync st sk tool mode t1 with ⟨res1, st1⟩
  intro h1
  have h1x : res1 = Except.ok r1 := h1
  subst h1x
  simp only [sync] at e1
  split at e1
  · rename_i sid hown
    split at e1
    · rename_i hsid
      subst hsid
      split at e1
      · rename_i c hfile
        split at e1
        · rename_i hfp
          rcases Prod.mk.injEq .. |>.mp e1 with ⟨eA, eB⟩
          rcases Except.ok.injEq .. |>.mp eA with eR
          subst eB
          refine ⟨{ mode_used := modeUsed st mode
                    target_path := targetPathFor tool sk.name }, ?_, ?_, ?_, ?_⟩
          · simp [sync, modeUsed, hown, hfile, hfp]
          · rw [← eR]
          · rw [← eR]
          · simp [sync, modeUsed, hown, hfile, hfp]
        · rename_i hfp
          rcases Prod.mk.injEq .. |>.mp e1 with ⟨eA, eB⟩
          rcases Except.ok.injEq .. |>.mp eA with eR
          subst eB
          refine ⟨{ mode_used := modeUsed st mode
                    target_path := targetPathFor tool sk.name }, ?_, ?_, ?_, ?_⟩
          · simp [sync, modeUsed, hown, lookup_setAssoc_same]
          · rw [← eR]
          · rw [← eR]
          · simp [sync, modeUsed, hown, lookup_setAssoc_same]
      · rename_i hfile
        rcases Prod.mk.injEq .. |>.mp e1 with ⟨eA, eB⟩
        rcases Except.ok.injEq .. |>.mp eA with eR
        subst eB
        refine ⟨{ mode_used := modeUsed st mode
                  target_path := targetPathFor tool sk.name }, ?_, ?_, ?_, ?_⟩
        · simp [sync, modeUsed, hown, lookup_setAssoc_same]
        · rw [← eR]
        · rw [← eR]
        · simp [sync, modeUsed, hown, lookup_setAssoc_same]
    · exact absurd (Prod.mk.injEq .. |>.mp e1).1 (by simp)
  · rename_i hown
    rcases Prod.mk.injEq .. |>.mp e1 with ⟨eA, eB⟩
    rcases Except.ok.injEq .. |>.mp eA with eR
    subst eB
    refine ⟨{ mode_used := modeUsed st mode
              target_path := targetPathFor tool sk.name }, ?_, ?_, ?_, ?_⟩
    · simp [sync, modeUsed, lookup_setAssoc_same]
    · rw [← eR]
    · rw [← eR]
    · simp [sync, modeUsed, lookup_setAssoc_same]


/-- Witness: a fresh sync of skill s1 to tool alpha followed by a second sync
with unchanged content. -/
theorem sync_idempotent_when_content_unchanged_witness :
    ∃ r2 : SyncResult,
      (sync (sync (EngineState.mk [] [] [] true) (SkillRec.mk "s1" "foo" "body")
          "alpha" "copy" 1).2 (SkillRec.mk "s1" "foo" "body") "alpha" "copy" 2).1 =
        Except.ok r2 ∧
      r2.target_path = (SyncResult.mk "copy" "alpha/foo").target_path ∧
      r2.mode_used = (SyncResult.mk "copy" "alpha/foo").mode_used ∧
      (sync (sync (EngineState.mk [] [] [] true) (SkillRec.mk "s1" "foo" "body")
          "alpha" "copy" 1).2 (SkillRec.mk "s1" "foo" "body") "alpha" "copy" 2).2.fileAt =
        (sync (EngineState.mk [] [] [] true) (SkillRec.mk "s1" "foo" "body")
          "alpha" "copy" 1).2.fileAt :=
  sync_idempotent_when_content_unchanged (EngineState.mk [] [] [] true)
    (SkillRec.mk "s1" "foo" "body") "alpha" "copy" 1 2
    (SyncResult.mk "copy" "alpha/foo") rfl

end AiToolbox.Engine

namespace AiToolbox.GitCache

/-- Modelled from the spec (§3): a git cache entry, keyed by normalized
source ref — the fetched working copy path, the fetch timestamp and the
last-access timestamp. -/
structure CacheEntry where
  path : String
  fetchedAt : Nat
  lastAccess : Nat
deriving DecidableEq, Repr

/-- Modelled from the spec: state of the git source cache.  `fetchCount`
counts the fetch operations performed against the underlying remote source,
so that "no new fetch" is expressed as `fetchCount` unchanged. -/
structure CacheState where
  entries : List (String × CacheEntry)
  ttlSecs : Nat
  fetchCount : Nat
deriving DecidableEq, Repr

/-- Modelled from the spec: deterministic working-copy location per
normalized ref inside the directory owned by the git source cache. -/
def workingPathFor (ref : String) : String := "git-cache/" ++ ref

/-- Modelled from the spec (§4.6): `fetch(ref)`.  A cache entry whose age is
below the TTL is returned as is, with its last-access time refreshed and no
fetch of the underlying source; a stale or absent entry triggers exactly one
fetch, which atomically replaces the entry with a fresh one stamped at the
current time. -/
def fetch (st : CacheState) (now : Nat) (ref : String) : String × CacheState :=
  match List.lookup ref st.entries with
  | some e =>
    if now - e.fetchedAt < st.ttlSecs then
      (e.path,
       { st with entries := setAssoc st.entries ref { e with lastAccess := now } })
    else
      (workingPathFor ref,
       { st with
         entries := setAssoc st.entries ref
           { path := workingPathFor ref, fetchedAt := now, lastAccess := now }
         fetchCount := st.fetchCount + 1 })
  | none =>
    (workingPathFor ref,
     { st with
       entries := setAssoc st.entries ref
         { path := workingPathFor ref, fetchedAt := now, lastAccess := now }
       fetchCount := st.fetchCount + 1 })

/-- Modelled from the spec (§4.6): `cleanup(cleanupDays)` deletes every cache
entry whose age exceeds `cleanupDays` and returns the count of entries
removed.  The age of an entry is the time elapsed since its fetch
timestamp. -/
def cleanup (st : CacheState) (now cleanupDays : Nat) : Nat × CacheState :=
  let kept := st.entries.filter (fun pr => now - pr.2.fetchedAt ≤ cleanupDays)
  (st.entries.length - kept.length, { st with entries := kept })

/-- C5: after any `fetch`, the cache holds an entry for the ref whose path is
the returned working-copy path; a second `fetch` while that entry is younger
than the TTL returns the identical path and performs no new fetch, and a
second `fetch` once the TTL has elapsed performs exactly one new fetch. -/
theorem fetch_ttl_semantics :
    ∀ (st : CacheState) (ref : String) (t1 t2 : Nat),
      ∃ e : CacheEntry,
        List.lookup ref (fetch st t1 ref).2.entries = some e ∧
        e.path = (fetch st t1 ref).1 ∧
        (fetch st t1 ref).2.ttlSecs = st.ttlSecs ∧
        (t2 - e.fetchedAt < st.ttlSecs →
          (fetch (fetch st t1 ref).2 t2 ref).1 = (fetch st t1 ref).1 ∧
          (fetch (fetch st t1 ref).2 t2 ref).2.fetchCount =
            (fetch st t1 ref).2.fetchCount) ∧
        (st.ttlSecs ≤ t2 - e.fetchedAt →
          (fetch (fetch st t1 ref).2 t2 ref).2.fetchCount =
            (fetch st t1 ref).2.fetchCount + 1) := by
  intro st ref t1 t2
  rcases e1 : fetch st t1 ref with ⟨p1, st1⟩
  simp only [fetch] at e1
  split at e1
  · rename_i e0 hlook
    split at e1
    · rename_i hfresh
      rcases Prod.mk.injEq .. |>.mp e1 with ⟨eP, eS⟩
      subst eP
      subst eS
      refine ⟨{ e0 with lastAccess := t1 }, lookup_setAssoc_same .., rfl, rfl, ?_, ?_⟩
      · intro h
        constructor
        · simp only [fetch, lookup_setAssoc_same]
          rw [if_pos h]
        · simp only [fetch, lookup_setAssoc_same]
          rw [if_pos h]
      · intro h
        have h2 : st.ttlSecs ≤ t2 - e0.fetchedAt := h
        simp only [fetch, lookup_setAssoc_same]
        rw [if_neg (Nat.not_lt.mpr h2)]
    · rename_i hfresh
      rcases Prod.mk.injEq .. |>.mp e1 with ⟨eP, eS⟩
      subst eP
      subst eS
      refine ⟨{ path := workingPathFor ref, fetchedAt := t1, lastAccess := t1 },
        lookup_setAssoc_same .., rfl, rfl, ?_, ?_⟩
      · intro h
        constructor
        · simp only [fetch, lookup_setAssoc_same]
          rw [if_pos h]
        · simp only [fetch, lookup_setAssoc_same]
          rw [if_pos h]
      · intro h
        have h2 : st.ttlSecs ≤ t2 - t1 := h
        simp only [fetch, lookup_setAssoc_same]
        rw [if_neg (Nat.not_lt.mpr h2)]
  · rename_i hlook
    rcases Prod.mk.injEq .. |>.mp e1 with ⟨eP, eS⟩
    subst eP
    subst eS
    refine ⟨{ path := workingPathFor ref, fetchedAt := t1, lastAccess := t1 },
      lookup_setAssoc_same .., rfl, rfl, ?_, ?_⟩
    · intro h
      constructor
      · simp only [fetch, lookup_setAssoc_same]
        rw [if_pos h]
      · simp only [fetch, lookup_setAssoc_same]
        rw [if_pos h]
    · intro h
      have h2 : st.ttlSecs ≤ t2 - t1 := h
      simp only [fetch, lookup_setAssoc_same]
      rw [if_neg (Nat.not_lt.mpr h2)]

/-- Witness: on an empty cache with TTL 10, fetching ref r at time 0 and again
at time 5 returns the same path with no second fetch. -/
theorem fetch_ttl_semantics_witness :
    (fetch (fetch (CacheState.mk [] 10 0) 0 "r").2 5 "r").1 =
      (fetch (CacheState.mk [] 10 0) 0 "r").1 ∧
    (fetch (fetch (CacheState.mk [] 10 0) 0 "r").2 5 "r").2.fetchCount =
      (fetch (CacheState.mk [] 10 0) 0 "r").2.fetchCount := by
  obtain ⟨e, hlook, hpath, httl, hhit, hstale⟩ :=
    fetch_ttl_semantics (CacheState.mk [] 10 0) "r" 0 5
  have h0 : some (CacheEntry.mk "git-cache/r" 0 0) = some e := by
    rw [← hlook]
    rfl
  have he : e = CacheEntry.mk "git-cache/r" 0 0 :=
    (Option.some.injEq .. |>.mp h0).symm
  subst he
  exact hhit (by decide)

theorem length_sub_filter {α : Type} (l : List α) (p : α → Bool) :
    l.length - (l.filter p).length = (l.filter (fun x => !(p x))).length := by
  induction l with
  | nil => rfl
  | cons x t ih =>
    have hle := List.length_filter_le p t
    by_cases hx : p x = true
    · simp [List.filter_cons, hx]
      omega
    · simp only [Bool.not_eq_true] at hx
      simp [List.filter_cons, hx]
      omega

/-- C6: `cleanup(cleanupDays)` retains every entry whose age equals
`cleanupDays`, removes every entry whose age exceeds it (the boundary is
inclusive on the keep side), and returns the number of entries whose age
exceeds `cleanupDays`. -/
theorem cleanup_boundary :
    ∀ (st : CacheState) (now d : Nat),
      (∀ pr ∈ st.entries, now - pr.2.fetchedAt = d →
        pr ∈ (cleanup st now d).2.entries) ∧
      (∀ pr ∈ st.entries, d < now - pr.2.fetchedAt →
        pr ∉ (cleanup st now d).2.entries) ∧
      (cleanup st now d).1 =
        (st.entries.filter (fun pr => decide (d < now - pr.2.fetchedAt))).length := by
  intro st now d
  refine ⟨?_, ?_, ?_⟩
  · intro pr hm hage
    simp only [cleanup]
    exact List.mem_filter.mpr ⟨hm, by simp [hage]⟩
  · intro pr hm hage hmem
    simp only [cleanup] at hmem
    have h2 := (List.mem_filter.mp hmem).2
    simp at h2
    omega
  · simp only [cleanup]
    rw [length_sub_filter]
    congr 1
    apply List.filter_congr
    intro x hx
    rw [← decide_not]
    exact decide_eq_decide.mpr Nat.not_le

/-- Witness: at time 15 with cleanupDays 5, an entry fetched at 10 (age
exactly 5) is kept, an entry fetched at 5 (age 10) is removed, and the
removed count is 1. -/
theorem cleanup_boundary_witness :
    ("a", CacheEntry.mk "p" 10 10) ∈
      (cleanup (CacheState.mk
        [("a", CacheEntry.mk "p" 10 10), ("b", CacheEntry.mk "q" 5 5)] 10 0) 15 5).2.entries ∧
    ("b", CacheEntry.mk "q" 5 5) ∉
      (cleanup (CacheState.mk
        [("a", CacheEntry.mk "p" 10 10), ("b", CacheEntry.mk "q" 5 5)] 10 0) 15 5).2.entries ∧
    (cleanup (CacheState.mk
        [("a", CacheEntry.mk "p" 10 10), ("b", CacheEntry.mk "q" 5 5)] 10 0) 15 5).1 = 1 := by
  obtain ⟨h1, h2, h3⟩ := cleanup_boundary
    (CacheState.mk [("a", CacheEntry.mk "p" 10 10), ("b", CacheEntry.mk "q" 5 5)] 10 0) 15 5
  refine ⟨h1 _ (by decide) (by decide), h2 _ (by decide) (by decide), ?_⟩
  rw [h3]
  decide

end AiToolbox.GitCache

namespace AiToolbox.Codex

/-- Single-quote character, written by code point to keep the source free of
quote literals. -/
def squote : Char := Char.ofNat 39

/-- Double-quote character. -/
def dquote : Char := Char.ofNat 34

/-- Newline character. -/
def nlChar : Char := Char.ofNat 10

/-- Character class of the regex group `(['"])` in `codexConfigUtils.ts`. -/
def isQuoteChar (c : Char) : Bool := c == squote || c == dquote

/-- The regex class `\s` of `codexConfigUtils.ts`, restricted to the ASCII
whitespace characters (space, tab, newline, carriage return, form feed,
vertical tab).  The non-ASCII code points JavaScript also counts as `\s` are
not modelled; no property proved here depends on them. -/
def isWsChar (c : Char) : Bool :=
  c == ' ' || c == Char.ofNat 9 || c == nlChar || c == Char.ofNat 13 ||
  c == Char.ofNat 12 || c == Char.ofNat 11

/-- Character-level effect of `normalizeQuotes` (`codexConfigUtils.ts` lines
11-25).  In the given source the first four `.replace` calls substitute an
ASCII quote character by itself (pattern and replacement are the same
character), so they are the identity on every string; the remaining two
rewrite fullwidth apostrophe U+FF07 to an ASCII single quote and fullwidth
quotation mark U+FF02 to an ASCII double quote.  Each replace is a global
single-character substitution, so their composition is this per-character
map. -/
def normChar (c : Char) : Char :=
  if c == Char.ofNat 65287 then squote
  else if c == Char.ofNat 65282 then dquote
  else c

/-- The `normalizeQuotes` function of `codexConfigUtils.ts` lines 11-25
(its empty-string early return coincides with mapping over no characters). -/
def normalizeQuotes (s : String) : String := String.mk (s.toList.map normChar)

/-- The literal `base_url` of the regex. -/
def baseUrlKey : List Char := "base_url".toList

/-- Greedy `\s*`: deterministic because in the regex each `\s*` is followed by
a non-whitespace requirement (`=` or a quote), so the maximal run is the only
viable one. -/
def dropSpaces (l : List Char) : List Char := l.dropWhile isWsChar

/-- Tail of the regex after the opening quote `q`: `([^'"]+)\1`.  Under
backtracking, `[^'"]+` can only ever end immediately before a quote
character, so the match succeeds iff the maximal quote-free run after the
opener is nonempty and is followed by the same quote `q`; the run is the
captured group 2. -/
def matchQuoted (q : Char) (l : List Char) : Option (List Char × List Char) :=
  match l.dropWhile (fun c => !(isQuoteChar c)) with
  | [] => none
  | c :: rest =>
    if c == q && !((l.takeWhile (fun c2 => !(isQuoteChar c2))).isEmpty) then
      some (l.takeWhile (fun c2 => !(isQuoteChar c2)), rest)
    else none

/-- Regex tail after `base_url\s*=`: skip whitespace, require a quote, then
match the quoted value. -/
def matchAfterEq (l : List Char) : Option (List Char × List Char) :=
  match dropSpaces l with
  | [] => none
  | c :: l2 => if isQuoteChar c then matchQuoted c l2 else none

/-- Regex tail after the literal `base_url`: skip whitespace, require `=`,
then match the rest. -/
def matchAfterName (l : List Char) : Option (List Char × List Char) :=
  match dropSpaces l with
  | [] => none
  | c :: l2 => if c == '=' then matchAfterEq l2 else none

/-- Match of `/base_url\s*=\s*(['"])([^'"]+)\1/` anchored at the head of `l`,
returning the second capture group and the text after the match. -/
def matchPat (l : List Char) : Option (List Char × List Char) :=
  if l.take 8 = baseUrlKey then matchAfterName (l.drop 8) else none

/-- Leftmost match of the pattern, as performed by `String.prototype.match`
and by non-global `replace`: the text before the match, the second capture
group, and the text after the match. -/
def findMatch : List Char → Option (List Char × List Char × List Char)
  | [] => none
  | c :: rest =>
    match matchPat (c :: rest) with
    | some (g, after) => some ([], g, after)
    | none =>
      match findMatch rest with
      | some (b, g, a) => some (c :: b, g, a)
      | none => none

/-- The `typeof configText === 'string' ? configText : ''` coercion of
`extractCodexBaseUrl`. -/
def rawText (configText : Option String) : String :=
  match configText with
  | some s => s
  | none => ""

/-- The `extractCodexBaseUrl` function of `codexConfigUtils.ts` lines 32-45:
normalize quotes, return `undefined` for empty text, otherwise the second
capture group of the first pattern match (the `let` bindings of the source
are inlined; the `try` block cannot throw). -/
def extractCodexBaseUrl (configText : Option String) : Option String :=
  if normalizeQuotes (rawText configText) = "" then none
  else
    match findMatch (normalizeQuotes (rawText configText)).toList with
    | some (_, g, _) => some (String.mk g)
    | none => none

/-- List-level `String.prototype.trim`, restricted to ASCII whitespace. -/
def trimChars (l : List Char) : List Char :=
  ((l.dropWhile isWsChar).reverse.dropWhile isWsChar).reverse

/-- The `baseUrl.trim()` call of `setCodexBaseUrl`. -/
def trimString (s : String) : String := String.mk (trimChars s.toList)

/-- The `trimmed.replace(/\s+/g, '')` call of `setCodexBaseUrl`: a global
replace of whitespace runs by nothing removes exactly the whitespace
characters. -/
def stripWhitespace (s : String) : String :=
  String.mk (s.toList.filter (fun c => !(isWsChar c)))

/-- The template literal `base_url = "${normalizedUrl}"`. -/
def replacementLineFor (url : List Char) : List Char :=
  "base_url = ".toList ++ dquote :: (url ++ [dquote])

/-- The `prefix` computation of `setCodexBaseUrl` lines 74-76: append a
newline to nonempty text not already ending in one. -/
def pfxList (s : String) : List Char :=
  if s.toList = [] ∨ s.toList.getLast? = some nlChar then s.toList
  else s.toList ++ [nlChar]

/-- The `setCodexBaseUrl` function of `codexConfigUtils.ts` lines 54-78:
empty trimmed url returns the text unchanged; otherwise the first pattern
match in the quote-normalized text is replaced by the replacement line, and
if there is no match the replacement line is appended on its own line (the
`let` bindings of the source are inlined). -/
def setCodexBaseUrl (configText baseUrl : String) : String :=
  if trimString baseUrl = "" then configText
  else
    match findMatch (normalizeQuotes configText).toList with
    | some (b, _, a) =>
      String.mk (b ++
        replacementLineFor (stripWhitespace (trimString baseUrl)).toList ++ a)
    | none =>
      String.mk (pfxList (normalizeQuotes configText) ++
        replacementLineFor (stripWhitespace (trimString baseUrl)).toList ++ [nlChar])

/-- A list of characters containing no single or double quote. -/
def noQuotes (l : List Char) : Bool := l.all (fun c => !(isQuoteChar c))

/-- Shape of the appended or substituted assignment line followed by the rest
of the text: the replacement line fused with what follows it. -/
def fullLine (u r : List Char) : List Char :=
  "base_url = ".toList ++ dquote :: (u ++ dquote :: r)

theorem dropSpaces_cons_of_ws (c : Char) (l : List Char) (h : isWsChar c = true) :
    dropSpaces (c :: l) = dropSpaces l := by
  simp [dropSpaces, List.dropWhile_cons, h]

theorem dropSpaces_cons_of_not (c : Char) (l : List Char) (h : isWsChar c = false) :
    dropSpaces (c :: l) = c :: l := by
  simp [dropSpaces, List.dropWhile_cons, h]

theorem noQuotes_cons {c : Char} {l : List Char} (h : noQuotes (c :: l) = true) :
    isQuoteChar c = false ∧ noQuotes l = true := by
  simp only [noQuotes, List.all_cons, Bool.and_eq_true, Bool.not_eq_true'] at h
  exact ⟨h.1, h.2⟩

theorem noQuotes_of_subset (l1 l2 : List Char) (hs : l1 ⊆ l2)
    (h : noQuotes l2 = true) : noQuotes l1 = true := by
  simp only [noQuotes, List.all_eq_true] at h ⊢
  exact fun c hc => h c (hs hc)

theorem matchAfterEq_none_of_noQuotes :
    ∀ l : List Char, noQuotes l = true → matchAfterEq l = none := by
  intro l
  induction l with
  | nil => intro _; rfl
  | cons c t ih =>
    intro h
    obtain ⟨hc, ht⟩ := noQuotes_cons h
    by_cases hw : isWsChar c = true
    · unfold matchAfterEq
      rw [dropSpaces_cons_of_ws c t hw]
      exact ih ht
    · have hw2 : isWsChar c = false := by simpa using hw
      unfold matchAfterEq
      rw [dropSpaces_cons_of_not c t hw2]
      simp [hc]

theorem matchAfterName_none_of_noQuotes :
    ∀ l : List Char, noQuotes l = true → matchAfterName l = none := by
  intro l
  induction l with
  | nil => intro _; rfl
  | cons c t ih =>
    intro h
    obtain ⟨hc, ht⟩ := noQuotes_cons h
    by_cases hw : isWsChar c = true
    · unfold matchAfterName
      rw [dropSpaces_cons_of_ws c t hw]
      exact ih ht
    · have hw2 : isWsChar c = false := by simpa using hw
      unfold matchAfterName
      rw [dropSpaces_cons_of_not c t hw2]
      show (if (c == '=') = true then matchAfterEq t else none) = none
      by_cases he : (c == '=') = true
      · rw [if_pos he]
        exact matchAfterEq_none_of_noQuotes t ht
      · rw [if_neg he]

theorem matchPat_none_of_noQuotes (l : List Char) (h : noQuotes l = true) :
    matchPat l = none := by
  unfold matchPat
  by_cases ht : l.take 8 = baseUrlKey
  · rw [if_pos ht]
    exact matchAfterName_none_of_noQuotes (l.drop 8)
      (noQuotes_of_subset _ _ (List.drop_sublist .. |>.subset) h)
  · rw [if_neg ht]

theorem findMatch_cons_some (c : Char) (rest g after : List Char)
    (h : matchPat (c :: rest) = some (g, after)) :
    findMatch (c :: rest) = some ([], g, after) := by
  simp only [findMatch, h]

theorem findMatch_cons_none (c : Char) (rest : List Char)
    (h : matchPat (c :: rest) = none) :
    findMatch (c :: rest) =
      (match findMatch rest with
       | some (b, g, a) => some (c :: b, g, a)
       | none => none) := by
  simp only [findMatch, h]

theorem findMatch_none_of_noQuotes :
    ∀ l : List Char, noQuotes l = true → findMatch l = none := by
  intro l
  induction l with
  | nil => intro _; rfl
  | cons c t ih =>
    intro h
    rw [findMatch_cons_none c t (matchPat_none_of_noQuotes _ h), ih (noQuotes_cons h).2]

theorem takeWhile_append_of_all {p : Char → Bool} :
    ∀ (u v : List Char), u.all p = true →
      (u ++ v).takeWhile p = u ++ v.takeWhile p := by
  intro u v
  induction u with
  | nil => intro _; rfl
  | cons c t ih =>
    intro h
    simp only [List.all_cons, Bool.and_eq_true] at h
    simp [List.takeWhile_cons, h.1, ih h.2]

theorem dropWhile_append_of_all {p : Char → Bool} :
    ∀ (u v : List Char), u.all p = true →
      (u ++ v).dropWhile p = v.dropWhile p := by
  intro u v
  induction u with
  | nil => intro _; rfl
  | cons c t ih =>
    intro h
    simp only [List.all_cons, Bool.and_eq_true] at h
    simp [List.dropWhile_cons, h.1, ih h.2]

theorem matchPat_fullLine (u r : List Char) (hu : u ≠ [])
    (hq : noQuotes u = true) : matchPat (fullLine u r) = some (u, r) := by
  have htake : (fullLine u r).take 8 = baseUrlKey := rfl
  unfold matchPat
  rw [htake, if_pos rfl]
  show matchAfterName (' ' :: '=' :: ' ' :: dquote :: (u ++ dquote :: r)) =
    some (u, r)
  show matchQuoted dquote (u ++ dquote :: r) = some (u, r)
  have hall : u.all (fun c => !(isQuoteChar c)) = true := hq
  have h1 : (u ++ dquote :: r).dropWhile (fun c => !(isQuoteChar c)) =
      dquote :: r := by
    rw [dropWhile_append_of_all _ _ hall]
    rfl
  have h2 : (u ++ dquote :: r).takeWhile (fun c => !(isQuoteChar c)) = u := by
    rw [takeWhile_append_of_all _ _ hall]
    simp [List.takeWhile_cons]
    decide
  have hie : u.isEmpty = false := by
    cases u with
    | nil => exact absurd rfl hu
    | cons a b => rfl
  unfold matchQuoted
  rw [h1, h2]
  simp [hie]

theorem matchAfterEq_prefix_fullLine (u r : List Char) :
    ∀ q : List Char, noQuotes q = true →
      matchAfterEq (q ++ fullLine u r) = none := by
  intro q
  induction q with
  | nil => intro _; rfl
  | cons c t ih =>
    intro h
    obtain ⟨hc, ht⟩ := noQuotes_cons h
    rw [List.cons_append]
    by_cases hw : isWsChar c = true
    · unfold matchAfterEq
      rw [dropSpaces_cons_of_ws _ _ hw]
      exact ih ht
    · have hw2 : isWsChar c = false := by simpa using hw
      unfold matchAfterEq
      rw [dropSpaces_cons_of_not _ _ hw2]
      simp [hc]

theorem matchAfterName_prefix_fullLine (u r : List Char) :
    ∀ q : List Char, noQuotes q = true →
      matchAfterName (q ++ fullLine u r) = none := by
  intro q
  induction q with
  | nil => intro _; rfl
  | cons c t ih =>
    intro h
    obtain ⟨hc, ht⟩ := noQuotes_cons h
    rw [List.cons_append]
    by_cases hw : isWsChar c = true
    · unfold matchAfterName
      rw [dropSpaces_cons_of_ws _ _ hw]
      exact ih ht
    · have hw2 : isWsChar c = false := by simpa using hw
      unfold matchAfterName
      rw [dropSpaces_cons_of_not _ _ hw2]
      show (if (c == '=') = true then matchAfterEq (t ++ fullLine u r) else none) = none
      by_cases he : (c == '=') = true
      · rw [if_pos he]
        exact matchAfterEq_prefix_fullLine u r t ht
      · rw [if_neg he]

theorem matchPat_prefix_fullLine (u r : List Char) (q : List Char)
    (hne : q ≠ []) (hq : noQuotes q = true) :
    matchPat (q ++ fullLine u r) = none := by
  unfold matchPat
  by_cases htake : (q ++ fullLine u r).take 8 = baseUrlKey
  · rw [if_pos htake]
    by_cases hlen : 8 ≤ q.length
    · have hdrop : (q ++ fullLine u r).drop 8 = q.drop 8 ++ fullLine u r := by
        rw [List.drop_append_eq_append_drop, Nat.sub_eq_zero_of_le hlen,
          List.drop_zero]
      rw [hdrop]
      exact matchAfterName_prefix_fullLine u r (q.drop 8)
        (noQuotes_of_subset _ _ (List.drop_sublist .. |>.subset) hq)
    · have hlt : q.length < 8 := Nat.lt_of_not_le hlen
      have hpos : 1 ≤ q.length := List.length_pos.mpr hne
      have hdrop : (q ++ fullLine u r).drop 8 =
          (fullLine u r).drop (8 - q.length) := by
        rw [List.drop_append_eq_append_drop, List.drop_eq_nil_of_le (le_of_lt hlt),
          List.nil_append]
      rw [hdrop]
      obtain ⟨k, hk⟩ : ∃ k, 8 - q.length = k := ⟨_, rfl⟩
      rw [hk]
      have hk1 : 1 ≤ k := by omega
      have hk7 : k ≤ 7 := by omega
      interval_cases k <;> rfl
  · rw [if_neg htake]

theorem findMatch_prefix_fullLine (u r : List Char) (hu : u ≠ [])
    (hq : noQuotes u = true) :
    ∀ p : List Char, noQuotes p = true →
      findMatch (p ++ fullLine u r) = some (p, u, r) := by
  intro p
  induction p with
  | nil =>
    intro _
    exact findMatch_cons_some 'b'
      ("ase_url = ".toList ++ dquote :: (u ++ dquote :: r)) u r
      (matchPat_fullLine u r hu hq)
  | cons c t ih =>
    intro hp
    obtain ⟨hc, ht⟩ := noQuotes_cons hp
    rw [List.cons_append,
      findMatch_cons_none c (t ++ fullLine u r)
        (by rw [← List.cons_append]
            exact matchPat_prefix_fullLine u r (c :: t) (by simp) hp),
      ih ht]

theorem normChar_eq_self_of_not_quote (c : Char)
    (h : isQuoteChar (normChar c) = false) :
    normChar c = c ∧ isQuoteChar c = false := by
  by_cases h1 : (c == Char.ofNat 65287) = true
  · have he : normChar c = squote := by unfold normChar; rw [if_pos h1]
    rw [he] at h
    exact absurd h (by decide)
  · by_cases h2 : (c == Char.ofNat 65282) = true
    · have he : normChar c = dquote := by unfold normChar; rw [if_neg h1, if_pos h2]
      rw [he] at h
      exact absurd h (by decide)
    · have he : normChar c = c := by unfold normChar; rw [if_neg h1, if_neg h2]
      rw [he] at h
      exact ⟨he, h⟩

theorem normChar_idem (c : Char) : normChar (normChar c) = normChar c := by
  by_cases h1 : (c == Char.ofNat 65287) = true
  · have he : normChar c = squote := by unfold normChar; rw [if_pos h1]
    rw [he]
    decide
  · by_cases h2 : (c == Char.ofNat 65282) = true
    · have he : normChar c = dquote := by unfold normChar; rw [if_neg h1, if_pos h2]
      rw [he]
      decide
    · have he : normChar c = c := by unfold normChar; rw [if_neg h1, if_neg h2]
      rw [he, he]

theorem map_normChar_id_of_fix :
    ∀ l : List Char, (∀ c ∈ l, normChar c = c) → l.map normChar = l := by
  intro l
  induction l with
  | nil => intro _; rfl
  | cons c t ih =>
    intro h
    simp only [List.map_cons]
    rw [h c (by simp), ih (fun d hd => h d (by simp [hd]))]

theorem string_mk_eq_empty_iff (l : List Char) : (String.mk l = "") ↔ l = [] := by
  rw [String.ext_iff]

theorem filter_not_dropWhile (p : Char → Bool) :
    ∀ l : List Char,
      (l.dropWhile p).filter (fun c => !(p c)) = l.filter (fun c => !(p c)) := by
  intro l
  induction l with
  | nil => rfl
  | cons c t ih =>
    by_cases hc : p c = true
    · simp [List.dropWhile_cons, hc, List.filter_cons, ih]
    · have hc2 : p c = false := by simpa using hc
      simp [List.dropWhile_cons, hc2]

theorem stripWhitespace_trim (u : String) :
    stripWhitespace (trimString u) = stripWhitespace u := by
  apply congrArg String.mk
  show (trimChars u.toList).filter (fun c => !(isWsChar c)) =
    u.toList.filter (fun c => !(isWsChar c))
  unfold trimChars
  rw [List.filter_reverse, filter_not_dropWhile, List.filter_reverse,
    List.reverse_reverse, filter_not_dropWhile]

theorem head_dropWhile_false (p : Char → Bool) :
    ∀ (l : List Char) (c : Char) (t : List Char),
      l.dropWhile p = c :: t → p c = false := by
  intro l
  induction l with
  | nil => intro c t h; cases h
  | cons x xs ih =>
    intro c t h
    by_cases hx : p x = true
    · rw [List.dropWhile_cons, if_pos hx] at h
      exact ih c t h
    · have hx2 : p x = false := by simpa using hx
      rw [List.dropWhile_cons, if_neg (by simp [hx2])] at h
      injection h with h1 h2
      rw [← h1]
      exact hx2

theorem strip_trim_toList_ne_nil (u : String) (h : trimString u ≠ "") :
    (stripWhitespace (trimString u)).toList ≠ [] := by
  show (trimChars u.toList).filter (fun c => !(isWsChar c)) ≠ []
  unfold trimChars
  cases hY : (u.toList.dropWhile isWsChar).reverse.dropWhile isWsChar with
  | nil =>
    exfalso
    apply h
    unfold trimString trimChars
    rw [hY]
    rfl
  | cons c t =>
    have hc : isWsChar c = false := head_dropWhile_false isWsChar _ c t hY
    have hmemrev : c ∈ (c :: t).reverse := by
      rw [List.mem_reverse]
      simp
    have hmemf : c ∈ ((c :: t).reverse).filter (fun x => !(isWsChar x)) :=
      List.mem_filter.mpr ⟨hmemrev, by simp [hc]⟩
    exact List.ne_nil_of_mem hmemf

theorem replacement_append_fullLine (x rest : List Char) :
    replacementLineFor x ++ rest = fullLine x rest := by
  unfold replacementLineFor fullLine
  simp [List.append_assoc]

/-- C10 (amended): for every config text whose quote-normalized form contains
no single- or double-quote characters, and every url with the same property
whose trimmed form is non-empty, extracting the base url after setting it
yields exactly the url with all whitespace removed; and for every url whose
trimmed form is empty, `setCodexBaseUrl` returns the config text unchanged.
The restriction on the config text is forced by the counterexample below: a
text containing an unpaired quote ahead of the written line changes which
substring the extraction regex matches first. -/
theorem setCodexBaseUrl_roundTrip :
    (∀ t u : String,
      noQuotes (normalizeQuotes t).toList = true →
      noQuotes (normalizeQuotes u).toList = true →
      trimString u ≠ "" →
      extractCodexBaseUrl (some (setCodexBaseUrl t u)) =
        some (stripWhitespace u)) ∧
    (∀ t u : String, trimString u = "" → setCodexBaseUrl t u = t) := by
  constructor
  · intro t u hT hU hne
    have hUfix : ∀ c ∈ u.toList, normChar c = c ∧ isQuoteChar c = false := by
      intro c hc
      apply normChar_eq_self_of_not_quote
      have hmm : normChar c ∈ (normalizeQuotes u).toList :=
        List.mem_map_of_mem normChar hc
      simp only [noQuotes, List.all_eq_true] at hU
      have h2 := hU (normChar c) hmm
      simpa using h2
    have hurlsub : ∀ c ∈ (stripWhitespace (trimString u)).toList, c ∈ u.toList := by
      intro c hc
      have h1 : c ∈ trimChars u.toList := (List.mem_filter.mp hc).1
      unfold trimChars at h1
      rw [List.mem_reverse] at h1
      have h2 := (List.dropWhile_sublist _).subset h1
      rw [List.mem_reverse] at h2
      exact (List.dropWhile_sublist _).subset h2
    have hurlq : noQuotes (stripWhitespace (trimString u)).toList = true := by
      simp only [noQuotes, List.all_eq_true]
      intro c hc
      simp [(hUfix c (hurlsub c hc)).2]
    have hurlfix : ∀ c ∈ (stripWhitespace (trimString u)).toList, normChar c = c :=
      fun c hc => (hUfix c (hurlsub c hc)).1
    have hurlne : (stripWhitespace (trimString u)).toList ≠ [] :=
      strip_trim_toList_ne_nil u hne
    have hNfix : ∀ c ∈ (normalizeQuotes t).toList, normChar c = c := by
      intro c hc
      have hm : c ∈ t.toList.map normChar := hc
      obtain ⟨c0, hc0, rfl⟩ := List.mem_map.mp hm
      exact normChar_idem c0
    have hnlq : isQuoteChar nlChar = false := by decide
    have hpfxq : noQuotes (pfxList (normalizeQuotes t)) = true := by
      unfold pfxList
      by_cases hcase : (normalizeQuotes t).toList = [] ∨
          (normalizeQuotes t).toList.getLast? = some nlChar
      · rw [if_pos hcase]
        exact hT
      · rw [if_neg hcase]
        simp only [noQuotes, List.all_append]
        simp only [noQuotes] at hT
        rw [hT]
        decide
    have hpfxfix : ∀ c ∈ pfxList (normalizeQuotes t), normChar c = c := by
      intro c hc
      unfold pfxList at hc
      by_cases hcase : (normalizeQuotes t).toList = [] ∨
          (normalizeQuotes t).toList.getLast? = some nlChar
      · rw [if_pos hcase] at hc
        exact hNfix c hc
      · rw [if_neg hcase] at hc
        rcases List.mem_append.mp hc with h | h
        · exact hNfix c h
        · simp only [List.mem_singleton] at h
          rw [h]
          decide
    unfold setCodexBaseUrl
    rw [if_neg hne, findMatch_none_of_noQuotes _ hT]
    show extractCodexBaseUrl (some (String.mk
      (pfxList (normalizeQuotes t) ++
        replacementLineFor (stripWhitespace (trimString u)).toList ++ [nlChar]))) =
      some (stripWhitespace u)
    have hfix : (pfxList (normalizeQuotes t) ++
        replacementLineFor (stripWhitespace (trimString u)).toList ++
        [nlChar]).map normChar =
        pfxList (normalizeQuotes t) ++
        replacementLineFor (stripWhitespace (trimString u)).toList ++ [nlChar] := by
      apply map_normChar_id_of_fix
      intro c hc
      rcases List.mem_append.mp hc with h1 | h2
      · rcases List.mem_append.mp h1 with ha | hb
        · exact hpfxfix c ha
        · unfold replacementLineFor at hb
          rcases List.mem_append.mp hb with hc1 | hc2
          · fin_cases hc1 <;> decide
          · rcases List.mem_cons.mp hc2 with rfl | hc3
            · decide
            · rcases List.mem_append.mp hc3 with h | h
              · exact hurlfix c h
              · simp only [List.mem_singleton] at h
                rw [h]
                decide
      · simp only [List.mem_singleton] at h2
        rw [h2]
        decide
    have hnorm : normalizeQuotes (String.mk
        (pfxList (normalizeQuotes t) ++
          replacementLineFor (stripWhitespace (trimString u)).toList ++ [nlChar])) =
        String.mk (pfxList (normalizeQuotes t) ++
          replacementLineFor (stripWhitespace (trimString u)).toList ++ [nlChar]) :=
      congrArg String.mk hfix
    unfold extractCodexBaseUrl
    rw [show rawText (some (String.mk
      (pfxList (normalizeQuotes t) ++
        replacementLineFor (stripWhitespace (trimString u)).toList ++ [nlChar]))) =
      String.mk (pfxList (normalizeQuotes t) ++
        replacementLineFor (stripWhitespace (trimString u)).toList ++ [nlChar]) from rfl]
    rw [hnorm]
    rw [if_neg (by rw [string_mk_eq_empty_iff]; simp)]
    rw [show (String.mk (pfxList (normalizeQuotes t) ++
        replacementLineFor (stripWhitespace (trimString u)).toList ++
        [nlChar])).toList =
      pfxList (normalizeQuotes t) ++
        replacementLineFor (stripWhitespace (trimString u)).toList ++ [nlChar] from rfl]
    rw [List.append_assoc, replacement_append_fullLine]
    rw [findMatch_prefix_fullLine (stripWhitespace (trimString u)).toList [nlChar]
      hurlne hurlq _ hpfxq]
    show some (String.mk (stripWhitespace (trimString u)).toList) =
      some (stripWhitespace u)
    rw [show String.mk (stripWhitespace (trimString u)).toList =
      stripWhitespace (trimString u) from rfl]
    rw [stripWhitespace_trim]
  · intro t u h
    unfold setCodexBaseUrl
    rw [if_pos h]

/-- Counterexample to C10 as stated: the config text `base_url = "x` holds an
unclosed quote, so after `setCodexBaseUrl` appends the new assignment, the
leftmost regex match opens at the dangling quote and closes at the quote of
the appended line; extraction returns the stray text between them instead of
the url that was just set, even though the url is quote-free, non-empty and
whitespace-free. -/
theorem extract_set_counterexample :
    trimString "url" ≠ "" ∧
    noQuotes "url".toList = true ∧
    stripWhitespace "url" = "url" ∧
    setCodexBaseUrl "base_url = \"x" "url" =
      "base_url = \"x\nbase_url = \"url\"\n" ∧
    extractCodexBaseUrl (some (setCodexBaseUrl "base_url = \"x" "url")) =
      some "x\nbase_url = " ∧
    ("x\nbase_url = " : String) ≠ "url" := by
  refine ⟨by decide, by decide, rfl, rfl, rfl, by decide⟩

/-- Witness: the amended round trip on a quote-free config text with one
other assignment line. -/
theorem setCodexBaseUrl_roundTrip_witness :
    extractCodexBaseUrl (some (setCodexBaseUrl "model = 3\n" "url")) =
      some (stripWhitespace "url") :=
  setCodexBaseUrl_roundTrip.1 "model = 3\n" "url" (by decide) (by decide) (by decide)

end AiToolbox.Codex
